import Mathlib

/-!
Verification of the HydroGeoSines signal-processing engine
(`hydrogeosines/ext/hgs_analysis.py`).

The engine's pure numeric computations are shallowly embedded over `ℚ`
(real arithmetic without floating-point rounding).  Outputs of the external
numerical solvers (`numpy.linalg.lstsq`, `scipy.optimize.curve_fit`,
`scipy.linalg.svdvals`) are passed in as parameters: the repository code
treats them as opaque results and all claims are about the deterministic
computation surrounding them.  Trigonometric basis evaluation is passed in
as an oracle pair `cos2pi, sin2pi : ℚ → ℚ` standing for
`x ↦ cos (2πx)` and `x ↦ sin (2πx)`, since the design matrices only ever
evaluate `cos`/`sin` at arguments `2π · frequency · time`.
-/

set_option maxRecDepth 4000

namespace HgsAnalysis

/-! ### Basic list / matrix helpers mirroring the numpy primitives used -/

/-- Arithmetic mean of a list: `np.nanmean` on NaN-free data (`sum / len`). -/
def mean (l : List ℚ) : ℚ := l.sum / (l.length : ℚ)

/-- Helper for `cumsum`: running sums with accumulator `acc`. -/
def cumsumAux (acc : ℚ) : List ℚ → List ℚ
  | [] => []
  | a :: t => (acc + a) :: cumsumAux (acc + a) t

/-- `np.cumsum`: list of running partial sums. -/
def cumsum (l : List ℚ) : List ℚ := cumsumAux 0 l

/-- `np.diff`: successive differences `l[i+1] - l[i]`. -/
def diffQ (l : List ℚ) : List ℚ := List.zipWith (· - ·) l.tail l

/-- `np.min` of a nonempty list (0 on `[]`, where numpy would raise). -/
def listMin : List ℚ → ℚ
  | [] => 0
  | a :: t => t.foldl min a

/-- `np.max` of a nonempty list (0 on `[]`, where numpy would raise). -/
def listMax : List ℚ → ℚ
  | [] => 0
  | a :: t => t.foldl max a

/-- Dot product of two rational vectors (truncating like `zip`). -/
def dot (a b : List ℚ) : ℚ := (List.zipWith (· * ·) a b).sum

/-- `np.dot` of a matrix (list of rows) with a vector. -/
def matVec (M : List (List ℚ)) (v : List ℚ) : List ℚ := M.map (fun row => dot row v)

/-- `np.hstack` of two matrices stored as lists of rows. -/
def hstack2 (A B : List (List ℚ)) : List (List ℚ) := List.zipWith (· ++ ·) A B

/-- Round half to even on `ℚ` (the rounding rule used by `np.around`):
at a tie the even neighbour is chosen, otherwise the nearest integer
(`⌊q + 1/2⌋`). -/
def roundHalfEven (q : ℚ) : ℤ :=
  if q - ⌊q⌋ = 1/2 then (if ⌊q⌋ % 2 = 0 then ⌊q⌋ else ⌊q⌋ + 1) else ⌊q + 1/2⌋

/-- `np.around(x, 6)`: round to 6 decimal places, half to even. -/
def around6 (q : ℚ) : ℚ := (roundHalfEven (q * 1000000) : ℚ) / 1000000

/-! ### `regress_deconv` precondition checks (hgs_analysis.py lines 520-525)

The Python source reads

    tmp = np.diff(tf)
    if (np.around(np.min(tmp), 6) != np.around(np.max(tmp), 6)):
        raise Exception("Error: Dataset must be regularly sampled!")
    if (len(tf) != len(GW) != len(BP)):
        raise Exception("Error: All input arrays must have the same length!")

`len(tf) != len(GW) != len(BP)` is a Python chained comparison: it means
`len(tf) != len(GW) and len(GW) != len(BP)`. -/

/-- Python chained comparison `a != b != c`, i.e. `a ≠ b ∧ b ≠ c`. -/
def pyChainedNe (a b c : ℕ) : Bool := (a != b) && (b != c)

/-- The precondition checks at the top of `regress_deconv`:
regular-sampling check followed by the (chained) length check. -/
def regressDeconvPrecheck (tf GW BP : List ℚ) : Except String Unit :=
  if around6 (listMin (diffQ tf)) ≠ around6 (listMax (diffQ tf)) then
    Except.error "Error: Dataset must be regularly sampled!"
  else if pyChainedNe tf.length GW.length BP.length then
    Except.error "Error: All input arrays must have the same length!"
  else
    Except.ok ()

/-! ### Re-centering of the corrected head series (both modes)

    WLc = GW - np.concatenate([[0], dWLc])
    WLc += (np.nanmean(GW) - np.nanmean(WLc))
-/

/-- `WLc += (np.nanmean(GW) - np.nanmean(WLc))`: shift a series so its
mean matches that of `GW`. -/
def recenterStep (GW WLc : List ℚ) : List ℚ := WLc.map (fun w => w + (mean GW - mean WLc))

/-- The corrected head series (shared by the `hals` and `ts` branches of
`regress_deconv`): subtract the zero-padded integrated correction from the
raw head series and re-center the mean. -/
def correctedHead (GW dWLc : List ℚ) : List ℚ :=
  recenterStep GW (List.zipWith (· - ·) GW (0 :: dWLc))

/-! ### Response-function slices of the fitted coefficient vector

In both modes of `regress_deconv` (lines 602-606 and 711-715):

    brf  = c[np.arange(1, nm+1)]
    cbrf = np.cumsum(brf)

and in `ts` mode additionally (lines 727-732): `erf = c[nm+1:2*nm+1]`,
`cerf = np.cumsum(erf)`. -/

/-- `c[np.arange(1, nm+1)]`: the barometric lag coefficients. -/
def brfOf (c : List ℚ) (nm : ℕ) : List ℚ := (c.drop 1).take nm

/-- `c[nm+1:2*nm+1]`: the tidal lag coefficients (`ts` mode). -/
def erfOf (c : List ℚ) (nm : ℕ) : List ℚ := (c.drop (nm + 1)).take nm

/-- `cbrf = np.cumsum(brf)`: cumulative barometric response. -/
def crfOf (c : List ℚ) (nm : ℕ) : List ℚ := cumsum (brfOf c nm)

/-- `cerf = np.cumsum(erf)`: cumulative tidal response (`ts` mode). -/
def cerfOf (c : List ℚ) (nm : ℕ) : List ℚ := cumsum (erfOf c nm)

/-! ### Uncertainty propagation for cumulative responses

Lines 607-615 (and identically 716-724 and 733-741):

    cbrf_var = np.zeros(brf_var.shape)
    for i in np.arange(0, nm):
        diag = np.diagonal(brf_covar[0:i+1, 0:i+1])
        triaglow = np.tril(brf_covar[0:i+1, 0:i+1], -1)
        cbrf_var[i] = np.sum(diag) + 2*np.sum(triaglow)
    cbrf_stdev = np.sqrt(cbrf_var)

with `brf_covar = covar[1:nm+1, 1:nm+1]` (barometric block) and, in `ts`
mode, `erf_covar = covar[nm+1:2*nm+1, nm+1:2*nm+1]` (tidal block).
The covariance matrix `covar` (output of `curve_fit`) is a parameter,
represented as a function of its two indices. -/

/-- Square sub-block of the covariance matrix starting at offset `o`
(`covar[o:o+nm, o:o+nm]`, index-function form). -/
def blockAt (covar : ℕ → ℕ → ℚ) (o r c : ℕ) : ℚ := covar (o + r) (o + c)

/-- `np.sum(np.diagonal(B)) + 2*np.sum(np.tril(B, -1))` over the leading
`(i+1) × (i+1)` block `B` of `cov`: the loop body computing `cbrf_var[i]`.
`np.tril(B, -1)` keeps the entries strictly below the diagonal and zeroes
the rest. -/
def cbrfVar (cov : ℕ → ℕ → ℚ) (i : ℕ) : ℚ :=
  ((List.range (i + 1)).map (fun j => cov j j)).sum +
    2 * ((List.range (i + 1)).map (fun r =>
      ((List.range (i + 1)).map (fun j => if j < r then cov r j else 0)).sum)).sum

/-- `cbrf_stdev[i] = np.sqrt(cbrf_var[i])`. -/
noncomputable def cbrfStdev (cov : ℕ → ℕ → ℚ) (i : ℕ) : ℝ :=
  Real.sqrt (cbrfVar cov i)

/-- The propagation formula as the spec states it: sum of the first `i+1`
diagonal variance entries plus twice the sum of the pairwise covariances
below the diagonal of the `(i+1) × (i+1)` block. -/
def specCumVar (cov : ℕ → ℕ → ℚ) (i : ℕ) : ℚ :=
  (∑ j in Finset.range (i + 1), cov j j) +
    2 * ∑ r in Finset.range (i + 1), ∑ j in Finset.range r, cov r j

/-! ### `harmonic_lsqr` (hgs_analysis.py lines 381-429)

    N = data.shape[0]
    tf = tf - np.floor(tf[0])
    Phi = ...  (cos/sin column pairs per frequency, then a constant column)
    theta, residuals, rank, singular = np.linalg.lstsq(Phi, data, rcond=None)
    error_variance = residuals[0]/N
    condnum = np.max(singular) / np.min(singular)
    if (condnum > 1e6): warnings.warn(...)
    y_model = Phi@theta
    dc_comp = theta[-1]
    hals_comp = theta[:-1:2]*1j + theta[1:-1:2]

`theta`, `residuals` and `singular` are solver outputs and appear as
parameters.  Complex numbers are represented as `(re, im)` pairs. -/

/-- Python extended-slice step 2: every second element of a list
(used for `theta[a:b:2]` after the `a`/`b` trimming). -/
def everySecond {α : Type} : List α → List α
  | [] => []
  | [a] => [a]
  | a :: _ :: t => a :: everySecond t

/-- `hals_comp = theta[:-1:2]*1j + theta[1:-1:2]`: pair the cosine-column
coefficient `c` (even positions) and sine-column coefficient `s` (odd
positions) of each frequency into the complex number `c*1j + s`, whose
real part is `s` and imaginary part is `c`. -/
def halsComp (theta : List ℚ) : List (ℚ × ℚ) :=
  List.zipWith (fun c s => (s, c)) (everySecond theta.dropLast)
    (everySecond (theta.dropLast.drop 1))

/-- `dc_comp = theta[-1]`: the DC offset is the last fitted parameter. -/
def dcOf (theta : List ℚ) : ℚ := theta.getD (theta.length - 1) 0

/-- `tf = tf - np.floor(tf[0])`: make the time vector relative. -/
def tfRel (tf : List ℚ) : List ℚ := tf.map (fun x => x - (⌊tf.headD 0⌋ : ℚ))

/-- One row of the design matrix `Phi`: `Phi[:,2j] = cos(f[j]*tf)`,
`Phi[:,2j+1] = sin(f[j]*tf)`, `Phi[:,-1] = 1`  (with `f = 2π·freqs`
folded into the trigonometric oracle). -/
def halsPhiRow (cos2pi sin2pi : ℚ → ℚ) (freqs : List ℚ) (tr : ℚ) : List ℚ :=
  (freqs.flatMap (fun fj => [cos2pi (fj * tr), sin2pi (fj * tr)])) ++ [1]

/-- The design matrix `Phi` of `harmonic_lsqr`, one row per (relative)
sample time. -/
def halsPhi (cos2pi sin2pi : ℚ → ℚ) (tf freqs : List ℚ) : List (List ℚ) :=
  (tfRel tf).map (halsPhiRow cos2pi sin2pi freqs)

/-- `condnum = np.max(singular) / np.min(singular)`. -/
def condNum (sgl : List ℚ) : ℚ := listMax sgl / listMin sgl

/-- `if (condnum > 1e6): warnings.warn(...)`: whether the ill-conditioning
warning fires. -/
def condWarn (sgl : List ℚ) : Bool := decide (condNum sgl > 1000000)

/-- The result dictionary of `harmonic_lsqr`. -/
structure HalsResult where
  freq : List ℚ
  complexCoef : List (ℚ × ℚ)
  errVar : ℚ
  condNumber : ℚ
  offset : ℚ
  yModel : List ℚ

/-- `harmonic_lsqr` after the `lstsq` call, paired with whether the
(non-fatal) ill-conditioning warning fired.  Accessing `residuals[0]` on an
empty residuals array raises an `IndexError`, which happens before the
condition number is even computed. -/
def harmonic_lsqr (cos2pi sin2pi : ℚ → ℚ) (tf data freqs : List ℚ)
    (theta residuals sgl : List ℚ) : Except String (HalsResult × Bool) :=
  match residuals.get? 0 with
  | none => Except.error "IndexError: index 0 is out of bounds for axis 0 with size 0"
  | some r0 =>
      Except.ok ({ freq := freqs, complexCoef := halsComp theta,
                   errVar := r0 / (data.length : ℚ), condNumber := condNum sgl,
                   offset := dcOf theta,
                   yModel := matVec (halsPhi cos2pi sin2pi tf freqs) theta },
                 condWarn sgl)

/-- Modelled from the numpy documentation of `np.linalg.lstsq` (an external
library, not repository code): the returned `residuals` array contains the
residual sum of squares only when the design matrix has full column rank
and strictly more rows than columns; otherwise it is empty. -/
def lstsqResiduals (M ncols rank : ℕ) (rss : ℚ) : List ℚ :=
  if rank = ncols ∧ ncols < M then [rss] else []

/-! ### `regress_deconv`, `hals` mode: matrix assembly (lines 527-565)

    dBP = np.diff(BP)/dt
    v[j+k, i] = -dBP[k]   for i in range(nm), j = lags[i] = i, k in range(n-j)
    u1[:,i] = np.cos(omega[i]*t[nn]); u2[:,i] = np.sin(omega[i]*t[nn])
    X = np.hstack([v, u1, u2])   (if Earth tides) else np.hstack([v])
    Z = np.hstack([np.ones([n,1]), X])
-/

/-- `dBP = np.diff(BP)/dt` (same formula builds `dWL` and `dET`). -/
def dSeries (BP : List ℚ) (dt : ℚ) : List ℚ := (diffQ BP).map (fun z => z / dt)

/-- The barometric lag matrix `v` (`n` rows, `nm` columns):
entry `(r, i)` is `-dBP[r-i]` when `i ≤ r` and `0` otherwise, exactly the
effect of the assembly loop `v[j+k, i] = -dBP[k]`. -/
def halsV (dBP : List ℚ) (n nm : ℕ) : List (List ℚ) :=
  (List.range n).map (fun r =>
    (List.range nm).map (fun i => if i ≤ r then -(dBP.getD (r - i) 0) else 0))

/-- The tidal cosine matrix `u1` (`n` rows, one column per frequency):
`u1[r, i] = cos(2π·fqs[i]·t[r])` via the trigonometric oracle. -/
def halsU1 (cos2pi : ℚ → ℚ) (t fqs : List ℚ) (n : ℕ) : List (List ℚ) :=
  (List.range n).map (fun r => fqs.map (fun fj => cos2pi (fj * t.getD r 0)))

/-- The tidal sine matrix `u2`: `u2[r, i] = sin(2π·fqs[i]·t[r])`. -/
def halsU2 (sin2pi : ℚ → ℚ) (t fqs : List ℚ) (n : ℕ) : List (List ℚ) :=
  (List.range n).map (fun r => fqs.map (fun fj => sin2pi (fj * t.getD r 0)))

/-- `X = np.hstack([v, u1, u2])` when Earth tides are included,
`np.hstack([v])` otherwise. -/
def halsX (et : Bool) (v u1 u2 : List (List ℚ)) : List (List ℚ) :=
  if et then hstack2 (hstack2 v u1) u2 else v

/-- The intercept column `np.ones([n,1])`. -/
def onesCol (n : ℕ) : List (List ℚ) := (List.range n).map (fun _ => [1])

/-- `Z = np.hstack([np.ones([n,1]), X])`: the full design matrix. -/
def halsZ (et : Bool) (v u1 u2 : List (List ℚ)) (n : ℕ) : List (List ℚ) :=
  hstack2 (onesCol n) (halsX et v u1 u2)

/-! ### `regress_deconv`: reconstruction and response extraction

Lines 589-596 (`hals`) and 698-705 (`ts`), identical in both modes:

    nc = len(c)
    dWLc = dt*np.cumsum(np.dot(X, c[1:nc]))
    WLc = GW - np.concatenate([[0], dWLc])
    WLc += (np.nanmean(GW) - np.nanmean(WLc))
-/

/-- `dWLc = dt*np.cumsum(np.dot(M, c[1:nc]))` where `M` is the regressor
matrix without the intercept column (`X` in `hals` mode, `XY` in `ts`
mode). -/
def dWLcOf (dt : ℚ) (M : List (List ℚ)) (c : List ℚ) : List ℚ :=
  (cumsum (matVec M (c.drop 1))).map (fun z => dt * z)

/-- The quantity subtracted from the raw head series before re-centering:
`np.concatenate([[0], dWLc])`. -/
def subtractedOf (dt : ℚ) (M : List (List ℚ)) (c : List ℚ) : List ℚ :=
  0 :: dWLcOf dt M c

/-- The corrected head series `WLc` returned by `regress_deconv`. -/
def WLcOf (dt : ℚ) (GW : List ℚ) (M : List (List ℚ)) (c : List ℚ) : List ℚ :=
  correctedHead GW (dWLcOf dt M c)

/-- The subtracted correction as the spec's words describe it for `hals`
mode: `dt` times the cumulative sum of the fitted *barometric* (lagged
pressure-derivative) contribution only, padded with a leading zero.  (This
is the refinement target to compare with `subtractedOf`, which is
translated from the code.) -/
def specHalsSubtractedBaroOnly (dt : ℚ) (v : List (List ℚ)) (c : List ℚ)
    (nm : ℕ) : List ℚ :=
  0 :: (cumsum (matVec v ((c.drop 1).take nm))).map (fun z => dt * z)

/-- The `hals`-mode tidal (erf) complex coefficients (lines 619-625):

    k = np.arange(nm+1, NP+nm+1)
    trf = np.array([a+(1j*b) for a,b in zip(c[k], c[NP+k])])

represented as `(re, im)` pairs: `a + 1j*b` has real part `a = c[nm+1+i]`
and imaginary part `b = c[NP+nm+1+i]`. -/
def trfOf (c : List ℚ) (nm NP : ℕ) : List (ℚ × ℚ) :=
  (List.range NP).map (fun i => (c.getD (nm + 1 + i) 0, c.getD (NP + (nm + 1 + i)) 0))

/-- `np.linspace(a, b, num, endpoint=True)`. -/
def npLinspace (a b : ℚ) (num : ℕ) : List ℚ :=
  if num = 1 then [a]
  else (List.range num).map (fun k => a + (b - a) * k / ((num : ℚ) - 1))

/-- A lag-domain response bundle `{'lag', 'irf', 'irf_stdev', 'crf',
'crf_stdev'}`. -/
structure LagBundle where
  lag : List ℚ
  irf : List ℚ
  irfStdev : List ℝ
  crf : List ℚ
  crfStdev : List ℝ

/-- The lag bundle built from the coefficient slice starting at `o`
(`o = 1` for `brf` in both modes, `o = nm+1` for `erf` in `ts` mode):
instantaneous responses, their standard deviations (square roots of the
covariance-block diagonal), cumulative responses, and propagated
cumulative standard deviations. -/
noncomputable def lagBundleOf (c : List ℚ) (covar : ℕ → ℕ → ℚ) (o nm : ℕ)
    (lagT : List ℚ) : LagBundle :=
  { lag := lagT,
    irf := (c.drop o).take nm,
    irfStdev := (List.range nm).map (fun j => Real.sqrt (blockAt covar o j j)),
    crf := cumsum ((c.drop o).take nm),
    crfStdev := (List.range nm).map (fun i => Real.sqrt (cbrfVar (blockAt covar o) i)) }

/-- Everything `regress_deconv` (`hals` mode) computes after the
`curve_fit` call: the corrected head series, the barometric lag bundle and
the tidal complex coefficients, paired with whether the (non-fatal)
ill-conditioning warning fired for the singular values `sgl` of `Z`. -/
noncomputable def regressDeconvHalsPost (dt : ℚ) (GW : List ℚ)
    (X : List (List ℚ)) (c : List ℚ) (covar : ℕ → ℕ → ℚ) (nm : ℕ)
    (lagH : ℚ) (fqs : List ℚ) (sgl : List ℚ) :
    (List ℚ × LagBundle × List (ℚ × ℚ)) × Bool :=
  ((WLcOf dt GW X c,
    lagBundleOf c covar 1 nm (npLinspace 0 lagH nm),
    trfOf c nm fqs.length),
   condWarn sgl)

/-- Everything `regress_deconv` (`ts` mode) computes after the `curve_fit`
call: the corrected head series, the barometric lag bundle and (when Earth
tides are included) the tidal lag bundle, paired with the warning flag. -/
noncomputable def regressDeconvTsPost (dt : ℚ) (GW : List ℚ)
    (XY : List (List ℚ)) (c : List ℚ) (covar : ℕ → ℕ → ℚ) (nm : ℕ)
    (lagH : ℚ) (et : Bool) (sgl : List ℚ) :
    (List ℚ × LagBundle × Option LagBundle) × Bool :=
  ((WLcOf dt GW XY c,
    lagBundleOf c covar 1 nm (npLinspace 0 lagH nm),
    if et then some (lagBundleOf c covar (nm + 1) nm (npLinspace 0 lagH nm)) else none),
   condWarn sgl)

/-! ### `lin_window_ovrlp` (hgs_analysis.py lines 431-494)

    interval    = length/(n_ovrlp+1)
    reg_times   = np.arange(x[0]-(x[1]-x[0])-length, x[-1]+length, interval)
    idx         = [np.where((x > tt-(length/2)) & (x <= tt+(length/2)))[0] for tt in reg_times]
    idx         = [i[~np.isnan(y[i])] for i in idx]
    idx         = [x for x in idx if len(x) >= stopper]
    for i in idx:
        coe = np.linalg.lstsq(A[i], y[i], rcond=None)[0]
        detrend = y[i] - (coe[0]*x[i] + coe[1])
        np.add.at(y_detr, i, detrend)
        np.add.at(counter, i, 1)
    counter[counter==0] = np.nan
    y_detrend = y_detr/counter
    y_detrend[np.isnan(y_detrend)] = 0.0

Missing samples (`np.nan`) are modelled as `none`; the per-window OLS line
fit `np.linalg.lstsq(A[i], y[i])[0]` is a solver output and appears as a
parameter `fit : List ℕ → ℚ × ℚ` giving `(slope, intercept)` per window. -/

/-- `np.arange(start, stop, step)` for a positive step. -/
def npArange (start stop step : ℚ) : List ℚ :=
  (List.range (((stop - start) / step).ceil.toNat)).map (fun k => start + k * step)

/-- The value of sample `i` (0 for missing samples; only used at indices
that passed the not-NaN filter). -/
def yValue (y : List (Option ℚ)) (i : ℕ) : ℚ := (y.getD i none).getD 0

/-- Whether sample `i` is present (not NaN). -/
def yIsNum (y : List (Option ℚ)) (i : ℕ) : Bool := (y.getD i none).isSome

/-- The sample indices of the window centred at `tt`:
`x > tt - length/2` and `x ≤ tt + length/2`, with missing values
excluded. -/
def windowIdx (x : List ℚ) (y : List (Option ℚ)) (wlen tt : ℚ) : List ℕ :=
  ((List.range x.length).filter (fun i =>
      decide (tt - wlen/2 < x.getD i 0) && decide (x.getD i 0 ≤ tt + wlen/2))).filter
    (yIsNum y)

/-- The windows that survive the stopper criterion (`len(idx) ≥ stopper`),
taken over the extended regular grid of window centres. -/
def survivingWindows (x : List ℚ) (y : List (Option ℚ)) (wlen : ℚ)
    (stopper n_ovrlp : ℕ) : List (List ℕ) :=
  ((npArange (x.getD 0 0 - (x.getD 1 0 - x.getD 0 0) - wlen)
      (x.getD (x.length - 1) 0 + wlen) (wlen / ((n_ovrlp : ℚ) + 1))).map
    (windowIdx x y wlen)).filter (fun w => decide (stopper ≤ w.length))

/-- The detrended value contributed at sample `i` by window `w`:
`y[i] - (coe[0]*x[i] + coe[1])`. -/
def detrendContrib (x : List ℚ) (yv : ℕ → ℚ) (fit : List ℕ → ℚ × ℚ)
    (w : List ℕ) (i : ℕ) : ℚ :=
  yv i - ((fit w).1 * x.getD i 0 + (fit w).2)

/-- One iteration of the accumulation loop: `np.add.at(y_detr, i, detrend)`
and `np.add.at(counter, i, 1)` for window `w` (arrays represented as
index functions). -/
def addWindow (x : List ℚ) (yv : ℕ → ℚ) (fit : List ℕ → ℚ × ℚ)
    (s : (ℕ → ℚ) × (ℕ → ℕ)) (w : List ℕ) : (ℕ → ℚ) × (ℕ → ℕ) :=
  (fun i => s.1 i + (if i ∈ w then detrendContrib x yv fit w i else 0),
   fun i => s.2 i + (if i ∈ w then 1 else 0))

/-- The accumulated detrended sums and contribution counts after the loop
over all surviving windows. -/
def accumDetrend (x : List ℚ) (y : List (Option ℚ)) (wlen : ℚ)
    (stopper n_ovrlp : ℕ) (fit : List ℕ → ℚ × ℚ) : (ℕ → ℚ) × (ℕ → ℕ) :=
  (survivingWindows x y wlen stopper n_ovrlp).foldl
    (addWindow x (yValue y) fit) (fun _ => 0, fun _ => 0)

/-- `lin_window_ovrlp`: final detrended series.  Division of the
accumulated sum by a zero counter produces NaN (`counter[counter==0] =
np.nan`), which the final clean-up replaces by `0.0`; over `ℚ` this is the
zero-counter branch. -/
def lin_window_ovrlp (x : List ℚ) (y : List (Option ℚ)) (wlen : ℚ)
    (stopper n_ovrlp : ℕ) (fit : List ℕ → ℚ × ℚ) : List ℚ :=
  (List.range y.length).map (fun i =>
    if (accumDetrend x y wlen stopper n_ovrlp fit).2 i = 0 then 0
    else (accumDetrend x y wlen stopper n_ovrlp fit).1 i /
      ((accumDetrend x y wlen stopper n_ovrlp fit).2 i : ℚ))

/-! ## Theorems -/

/-! ### Claim C1 -/

/-- Claim C1: the length precondition of `regress_deconv` is claimed to
reject any call in which the time and head series have equal length but the
pressure series a different one.  The chained comparison
`len(tf) != len(GW) != len(BP)` evaluates to `False` whenever
`len(tf) == len(GW)`, so for `tf = [0,1]`, `GW = [5,6]`, `BP = [1,2,3]`
the check passes and no error is raised, although `GW` and `BP` have
different lengths. -/
theorem regress_deconv_length_check_gap :
    regressDeconvPrecheck [0, 1] [5, 6] [1, 2, 3] = Except.ok () ∧
      ([5, 6] : List ℚ).length ≠ ([1, 2, 3] : List ℚ).length := by
  refine ⟨?_, by decide⟩
  have hd : diffQ [0, 1] = [1] := by norm_num [diffQ]
  have ha : around6 (listMin (diffQ [0, 1])) = around6 (listMax (diffQ [0, 1])) := by
    rw [hd]; rfl
  unfold regressDeconvPrecheck
  rw [if_neg (not_ne_iff.mpr ha), if_neg (by decide)]

/-! ### Claim C3 -/

theorem sum_map_add_const (l : List ℚ) (k : ℚ) :
    (l.map (fun w => w + k)).sum = l.sum + l.length * k := by
  induction l with
  | nil => simp
  | cons a t ih => simp [ih]; ring

theorem mean_map_add_const (l : List ℚ) (k : ℚ) (h : l ≠ []) :
    mean (l.map (fun w => w + k)) = mean l + k := by
  have h0 : l.length ≠ 0 := fun hh => h (List.length_eq_zero.mp hh)
  have hlen : (l.length : ℚ) ≠ 0 := Nat.cast_ne_zero.mpr h0
  simp only [mean, List.length_map, sum_map_add_const]
  field_simp
  ring

/-- Claim C3: for every (nonempty) head series and every integrated
correction series, the mean of the corrected head series produced by
`regress_deconv` (both modes run this identical re-centering code) equals
the mean of the input head series. -/
theorem corrected_head_mean_invariant (GW dWLc : List ℚ) (h : GW ≠ []) :
    mean (correctedHead GW dWLc) = mean GW := by
  unfold correctedHead recenterStep
  set W := List.zipWith (· - ·) GW (0 :: dWLc) with hW
  have hWne : W ≠ [] := by
    cases GW with
    | nil => exact absurd rfl h
    | cons g t => simp [hW]
  rw [mean_map_add_const W _ hWne]
  ring

/-- Witness for C3 at a concrete input: `GW = [1,2,3]`, `dWLc = [1,1]`. -/
theorem corrected_head_mean_invariant_witness :
    mean (correctedHead [1, 2, 3] [1, 1]) = mean [1, 2, 3] :=
  corrected_head_mean_invariant [1, 2, 3] [1, 1] (by decide)

/-! ### Claim C5 -/

theorem cumsumAux_get? (l : List ℚ) (acc : ℚ) (i : ℕ) (h : i < l.length) :
    (cumsumAux acc l).get? i = some (acc + (l.take (i + 1)).sum) := by
  induction l generalizing acc i with
  | nil => simp at h
  | cons a t ih =>
    cases i with
    | zero => simp [cumsumAux]
    | succ j =>
      have hj : j < t.length := by simpa using h
      show (cumsumAux (acc + a) t).get? j = _
      rw [ih (acc + a) j hj]
      simp [add_assoc]

theorem cumsum_get? (l : List ℚ) (i : ℕ) (h : i < l.length) :
    (cumsum l).get? i = some ((l.take (i + 1)).sum) := by
  rw [cumsum, cumsumAux_get? l 0 i h, zero_add]

theorem cumsum_getD (l : List ℚ) (i : ℕ) (h : i < l.length) :
    (cumsum l).getD i 0 = (l.take (i + 1)).sum := by
  rw [List.getD_eq_getD_get?, cumsum_get? l i h, Option.getD_some]

theorem take_sum_succ (l : List ℚ) (i : ℕ) (h : i < l.length) :
    (l.take (i + 1)).sum = (l.take i).sum + l.getD i 0 := by
  rw [List.take_succ, List.sum_append, List.getD_eq_getElem l 0 h,
    List.getElem?_eq_getElem h]
  simp

theorem cumsum_getD_zero (l : List ℚ) (h : l ≠ []) :
    (cumsum l).getD 0 0 = l.getD 0 0 := by
  have hl : 0 < l.length := List.length_pos.mpr h
  rw [cumsum_getD l 0 hl]
  cases l with
  | nil => exact absurd rfl h
  | cons a t => simp

theorem cumsum_getD_succ (l : List ℚ) (i : ℕ) (h0 : 0 < i) (h : i < l.length) :
    (cumsum l).getD i 0 = (cumsum l).getD (i - 1) 0 + l.getD i 0 := by
  have hi1 : i - 1 < l.length := lt_of_le_of_lt (Nat.sub_le i 1) h
  rw [cumsum_getD l i h, cumsum_getD l (i - 1) hi1,
    show i - 1 + 1 = i from by omega]
  exact take_sum_succ l i h

theorem cumsum_getD_last (l : List ℚ) (h : l ≠ []) :
    (cumsum l).getD (l.length - 1) 0 = l.sum := by
  have hl : 0 < l.length := List.length_pos.mpr h
  rw [cumsum_getD l (l.length - 1) (Nat.sub_lt hl Nat.one_pos),
    show l.length - 1 + 1 = l.length from by omega, List.take_length]

/-- Claim C5: in every lag-response bundle returned by `regress_deconv`
(the barometric bundle of both modes and the tidal bundle of `ts` mode),
the cumulative response `crf = np.cumsum(irf)` satisfies
`crf[0] = irf[0]`, `crf[i] = crf[i-1] + irf[i]` for `i ≥ 1`, and the
cumulative response at the last lag equals the sum of all instantaneous
responses. -/
theorem cumulative_response_partial_sums (c : List ℚ) (nm : ℕ)
    (hb : brfOf c nm ≠ []) (he : erfOf c nm ≠ []) :
    ((crfOf c nm).getD 0 0 = (brfOf c nm).getD 0 0 ∧
      (∀ i, 0 < i → i < (brfOf c nm).length →
        (crfOf c nm).getD i 0 = (crfOf c nm).getD (i - 1) 0 + (brfOf c nm).getD i 0) ∧
      (crfOf c nm).getD ((brfOf c nm).length - 1) 0 = (brfOf c nm).sum) ∧
    ((cerfOf c nm).getD 0 0 = (erfOf c nm).getD 0 0 ∧
      (∀ i, 0 < i → i < (erfOf c nm).length →
        (cerfOf c nm).getD i 0 = (cerfOf c nm).getD (i - 1) 0 + (erfOf c nm).getD i 0) ∧
      (cerfOf c nm).getD ((erfOf c nm).length - 1) 0 = (erfOf c nm).sum) := by
  refine ⟨⟨cumsum_getD_zero _ hb, fun i h0 h => cumsum_getD_succ _ i h0 h,
    cumsum_getD_last _ hb⟩,
    ⟨cumsum_getD_zero _ he, fun i h0 h => cumsum_getD_succ _ i h0 h,
    cumsum_getD_last _ he⟩⟩

/-- Witness for C5 at `c = [9, 1, 2, 3, 4]`, `nm = 2`: `brf = [1, 2]`,
`crf = [1, 3]`, `erf = [3, 4]`, `cerf = [3, 7]`. -/
theorem cumulative_response_partial_sums_witness :
    (crfOf [9, 1, 2, 3, 4] 2).getD 0 0 = (brfOf [9, 1, 2, 3, 4] 2).getD 0 0 ∧
      (cerfOf [9, 1, 2, 3, 4] 2).getD ((erfOf [9, 1, 2, 3, 4] 2).length - 1) 0 =
        (erfOf [9, 1, 2, 3, 4] 2).sum :=
  ⟨(cumulative_response_partial_sums [9, 1, 2, 3, 4] 2 (by simp [brfOf])
      (by simp [erfOf])).1.1,
    (cumulative_response_partial_sums [9, 1, 2, 3, 4] 2 (by simp [brfOf])
      (by simp [erfOf])).2.2.2⟩

/-! ### Claim C4 -/

theorem listSum_range_map (f : ℕ → ℚ) (n : ℕ) :
    ((List.range n).map f).sum = ∑ k in Finset.range n, f k := by
  induction n with
  | zero => simp
  | succ m ih => rw [List.range_succ, Finset.sum_range_succ]; simp [ih]

theorem sum_ite_lt (f : ℕ → ℚ) (r m : ℕ) (h : r ≤ m) :
    (∑ j in Finset.range m, if j < r then f j else 0) = ∑ j in Finset.range r, f j := by
  rw [← Finset.sum_filter]
  congr 1
  ext a
  simp only [Finset.mem_filter, Finset.mem_range]
  omega

theorem cbrfVar_eq_specCumVar (cov : ℕ → ℕ → ℚ) (i : ℕ) :
    cbrfVar cov i = specCumVar cov i := by
  unfold cbrfVar specCumVar
  rw [listSum_range_map, listSum_range_map]
  congr 2
  refine Finset.sum_congr rfl (fun r hr => ?_)
  rw [listSum_range_map]
  exact sum_ite_lt (fun j => cov r j) r (i + 1) (le_of_lt (Finset.mem_range.mp hr))

/-- Claim C4: for both the barometric covariance block
(`covar[1:nm+1,1:nm+1]`) and the tidal covariance block
(`covar[nm+1:2*nm+1,nm+1:2*nm+1]`), the cumulative response variance at
step `i` equals the sum of the first `i+1` diagonal entries plus twice the
sum of the strictly-lower-triangular entries of the `(i+1) × (i+1)` block,
and the reported cumulative standard deviation is its square root. -/
theorem cumulative_variance_propagation (covar : ℕ → ℕ → ℚ) (nm i : ℕ) :
    cbrfVar (blockAt covar 1) i = specCumVar (blockAt covar 1) i ∧
      cbrfStdev (blockAt covar 1) i = Real.sqrt (specCumVar (blockAt covar 1) i) ∧
      cbrfVar (blockAt covar (nm + 1)) i = specCumVar (blockAt covar (nm + 1)) i ∧
      cbrfStdev (blockAt covar (nm + 1)) i =
        Real.sqrt (specCumVar (blockAt covar (nm + 1)) i) := by
  refine ⟨cbrfVar_eq_specCumVar _ i, ?_, cbrfVar_eq_specCumVar _ i, ?_⟩ <;>
    rw [cbrfStdev, cbrfVar_eq_specCumVar]

/-! ### Claims C7 and C10: `harmonic_lsqr` -/

theorem get?_eq_some_getD (l : List ℚ) (k : ℕ) (h : k < l.length) :
    l.get? k = some (l.getD k 0) := by
  rw [List.getD_eq_getElem l 0 h, List.get?_eq_getElem?, List.getElem?_eq_getElem h]

theorem everySecond_get? {α : Type} : ∀ (l : List α) (j : ℕ),
    (everySecond l).get? j = l.get? (2 * j)
  | [], j => by simp [everySecond]
  | [a], 0 => rfl
  | [a], j + 1 => by
      simp [everySecond, show 2 * (j + 1) = 2 * j + 1 + 1 from by ring]
  | a :: b :: t, 0 => rfl
  | a :: b :: t, j + 1 => by
      show (everySecond t).get? j = _
      rw [everySecond_get? t j, show 2 * (j + 1) = 2 * j + 1 + 1 from by ring]
      rfl

theorem flatMap_pair_length (f g : ℚ → ℚ) :
    ∀ freqs : List ℚ, (freqs.flatMap (fun fj => [f fj, g fj])).length = 2 * freqs.length
  | [] => rfl
  | a :: t => by
      show ((f a :: g a :: t.flatMap (fun fj => [f fj, g fj]))).length = _
      simp only [List.length_cons, flatMap_pair_length f g t]
      omega

theorem flatMap_pair_get?_even (f g : ℚ → ℚ) :
    ∀ (freqs : List ℚ) (j : ℕ), j < freqs.length →
      (freqs.flatMap (fun fj => [f fj, g fj])).get? (2 * j) = some (f (freqs.getD j 0))
  | [], j, hj => by simp at hj
  | a :: t, 0, _ => rfl
  | a :: t, j + 1, hj => by
      show (f a :: g a :: t.flatMap (fun fj => [f fj, g fj])).get? (2 * (j + 1)) = _
      rw [show 2 * (j + 1) = 2 * j + 1 + 1 from by ring]
      show (t.flatMap (fun fj => [f fj, g fj])).get? (2 * j) = _
      rw [flatMap_pair_get?_even f g t j (by simpa using hj)]
      rw [List.getD_cons_succ]

theorem flatMap_pair_get?_odd (f g : ℚ → ℚ) :
    ∀ (freqs : List ℚ) (j : ℕ), j < freqs.length →
      (freqs.flatMap (fun fj => [f fj, g fj])).get? (2 * j + 1) = some (g (freqs.getD j 0))
  | [], j, hj => by simp at hj
  | a :: t, 0, _ => rfl
  | a :: t, j + 1, hj => by
      show (f a :: g a :: t.flatMap (fun fj => [f fj, g fj])).get? (2 * (j + 1) + 1) = _
      rw [show 2 * (j + 1) + 1 = 2 * j + 1 + 1 + 1 from by ring]
      show (t.flatMap (fun fj => [f fj, g fj])).get? (2 * j + 1) = _
      rw [flatMap_pair_get?_odd f g t j (by simpa using hj)]
      rw [List.getD_cons_succ]

theorem halsComp_get? (theta : List ℚ) (nf j : ℕ)
    (hθ : theta.length = 2 * nf + 1) (hj : j < nf) :
    (halsComp theta).get? j = some (theta.getD (2 * j + 1) 0, theta.getD (2 * j) 0) := by
  have hdl : theta.dropLast = theta.take (2 * nf) := by
    rw [List.dropLast_eq_take, hθ]
    norm_num
  unfold halsComp
  rw [List.get?_zipWith', everySecond_get?, everySecond_get?, List.get?_drop, hdl,
    List.get?_take (by omega : 2 * j < 2 * nf),
    List.get?_take (by omega : 1 + 2 * j < 2 * nf),
    get?_eq_some_getD theta (2 * j) (by omega),
    get?_eq_some_getD theta (1 + 2 * j) (by omega)]
  simp [show 1 + 2 * j = 2 * j + 1 from by ring]

/-- Claim C7: each complex coefficient returned by `harmonic_lsqr` has
real part equal to the fitted coefficient of the frequency's *sine* column
(`Phi[:,2j+1]`) and imaginary part equal to the fitted coefficient of the
*cosine* column (`Phi[:,2j]`), and the last fitted parameter (the
coefficient of the constant column at position `2·nf`) is returned
separately as the DC offset. -/
theorem harmonic_lsqr_complex_assignment
    (cos2pi sin2pi : ℚ → ℚ) (tf freqs theta : List ℚ) (j : ℕ)
    (hθ : theta.length = 2 * freqs.length + 1) (hj : j < freqs.length) :
    (halsComp theta).get? j =
        some (theta.getD (2 * j + 1) 0, theta.getD (2 * j) 0) ∧
      dcOf theta = theta.getD (2 * freqs.length) 0 ∧
      (∀ tr : ℚ,
        (halsPhiRow cos2pi sin2pi freqs tr).getD (2 * j) 0 =
            cos2pi (freqs.getD j 0 * tr) ∧
          (halsPhiRow cos2pi sin2pi freqs tr).getD (2 * j + 1) 0 =
            sin2pi (freqs.getD j 0 * tr) ∧
          (halsPhiRow cos2pi sin2pi freqs tr).getD (2 * freqs.length) 0 = 1) ∧
      ∀ r, r < tf.length →
        (halsPhi cos2pi sin2pi tf freqs).get? r =
          some (halsPhiRow cos2pi sin2pi freqs ((tfRel tf).getD r 0)) := by
  refine ⟨halsComp_get? theta freqs.length j hθ hj, ?_, ?_, ?_⟩
  · unfold dcOf
    rw [hθ]
    norm_num
  · intro tr
    have hlen := flatMap_pair_length (fun fj => cos2pi (fj * tr))
      (fun fj => sin2pi (fj * tr)) freqs
    refine ⟨?_, ?_, ?_⟩
    · rw [halsPhiRow, List.getD_eq_getD_get?,
        List.get?_append (by omega : 2 * j < _),
        flatMap_pair_get?_even _ _ freqs j hj]
      rfl
    · rw [halsPhiRow, List.getD_eq_getD_get?,
        List.get?_append (by omega : 2 * j + 1 < _),
        flatMap_pair_get?_odd _ _ freqs j hj]
      rfl
    · rw [halsPhiRow, List.getD_eq_getD_get?,
        List.get?_append_right (by omega : _ ≤ 2 * freqs.length), hlen]
      simp
  · intro r hr
    have hr' : r < (tfRel tf).length := by simpa [tfRel] using hr
    rw [halsPhi, List.get?_map, get?_eq_some_getD (tfRel tf) r hr']
    rfl

/-- Witness for C7 at `freqs = [1]`, `theta = [10, 20, 30]`, `j = 0`:
the complex coefficient is `(20, 10)` and the DC offset is `30`. -/
theorem harmonic_lsqr_complex_assignment_witness :
    (halsComp [10, 20, 30]).get? 0 =
        some (([10, 20, 30] : List ℚ).getD 1 0, ([10, 20, 30] : List ℚ).getD 0 0) ∧
      dcOf [10, 20, 30] = ([10, 20, 30] : List ℚ).getD 2 0 :=
  ⟨(harmonic_lsqr_complex_assignment (fun _ => (0 : ℚ)) (fun _ => (0 : ℚ))
      [] [1] [10, 20, 30] 0 (by decide) (by decide)).1,
    (harmonic_lsqr_complex_assignment (fun _ => (0 : ℚ)) (fun _ => (0 : ℚ))
      [] [1] [10, 20, 30] 0 (by decide) (by decide)).2.1⟩

/-- Claim C10: `harmonic_lsqr` computes the error variance as
`residuals[0]/N`; with the numpy residuals semantics this array is empty
whenever `N ≤ 2·(number of frequencies) + 1` or the design matrix is
rank-deficient, and in that case the function fails with an out-of-bounds
index access instead of returning a result. -/
theorem harmonic_lsqr_empty_residuals_failure
    (cos2pi sin2pi : ℚ → ℚ) (tf data freqs theta sgl : List ℚ)
    (rank : ℕ) (rss : ℚ)
    (h : data.length ≤ 2 * freqs.length + 1 ∨ rank < 2 * freqs.length + 1) :
    harmonic_lsqr cos2pi sin2pi tf data freqs theta
        (lstsqResiduals data.length (2 * freqs.length + 1) rank rss) sgl =
      Except.error "IndexError: index 0 is out of bounds for axis 0 with size 0" ∧
    ∀ r0 rest, ∃ res w,
      harmonic_lsqr cos2pi sin2pi tf data freqs theta (r0 :: rest) sgl =
        Except.ok (res, w) ∧ res.errVar = r0 / (data.length : ℚ) := by
  constructor
  · have hres : lstsqResiduals data.length (2 * freqs.length + 1) rank rss = [] := by
      unfold lstsqResiduals
      rw [if_neg]
      rintro ⟨h1, h2⟩
      omega
    rw [hres]
    rfl
  · intro r0 rest
    exact ⟨_, _, rfl, rfl⟩

/-- Witness for C10: `data = [1, 2]` (N = 2), one frequency (3 design
columns), rank 0: the modelled residuals are empty and the call fails. -/
theorem harmonic_lsqr_empty_residuals_failure_witness :
    harmonic_lsqr (fun _ => (0 : ℚ)) (fun _ => (0 : ℚ)) [] [1, 2] [1] []
        (lstsqResiduals ([1, 2] : List ℚ).length (2 * ([1] : List ℚ).length + 1) 0 5) [] =
      Except.error "IndexError: index 0 is out of bounds for axis 0 with size 0" :=
  (harmonic_lsqr_empty_residuals_failure (fun _ => (0 : ℚ)) (fun _ => (0 : ℚ))
    [] [1, 2] [1] [] [] 0 5 (Or.inl (by decide))).1

/-! ### Claim C6 -/

/-- Claim C6: in `harmonic_lsqr` and in both modes of `regress_deconv`,
the ill-conditioning warning fires exactly when the ratio of the largest
to the smallest singular value of the assembled design matrix exceeds
`1e6`, and the fit result is still returned (it does not depend on the
singular values beyond the non-fatal flag). -/
theorem condition_warning_iff_threshold
    (cos2pi sin2pi : ℚ → ℚ) (tf data freqs theta : List ℚ) (r0 : ℚ)
    (rest sgl sgl' : List ℚ) (dt : ℚ) (GW : List ℚ) (X XY : List (List ℚ))
    (c : List ℚ) (covar : ℕ → ℕ → ℚ) (nm : ℕ) (lagH : ℚ) (et : Bool)
    (h : sgl ≠ []) (h' : sgl' ≠ []) :
    (condWarn sgl = true ↔ condNum sgl > 1000000) ∧
      (∃ res, harmonic_lsqr cos2pi sin2pi tf data freqs theta (r0 :: rest) sgl =
        Except.ok (res, condWarn sgl)) ∧
      (regressDeconvHalsPost dt GW X c covar nm lagH freqs sgl).1 =
        (regressDeconvHalsPost dt GW X c covar nm lagH freqs sgl').1 ∧
      (regressDeconvTsPost dt GW XY c covar nm lagH et sgl).1 =
        (regressDeconvTsPost dt GW XY c covar nm lagH et sgl').1 :=
  ⟨by simp [condWarn], ⟨_, rfl⟩, rfl, rfl⟩

/-- Witness for C6: for singular values `[2000000, 1]` the condition
number is `2·10⁶ > 10⁶` and the warning flag is set. -/
theorem condition_warning_iff_threshold_witness :
    condWarn [2000000, 1] = true := by
  have h := (condition_warning_iff_threshold (fun _ => (0 : ℚ)) (fun _ => (0 : ℚ))
    [] [] [] [] 0 [] [2000000, 1] [1] 0 [] [] [] [] (fun _ _ => 0) 0 0 true
    (by decide) (by decide)).1
  refine h.mpr ?_
  norm_num [condNum, listMax, listMin]

/-! ### Claim C2: what `hals` mode subtracts from the head series -/

theorem dot_append : ∀ a b w : List ℚ,
    dot (a ++ b) w = dot a (w.take a.length) + dot b (w.drop a.length)
  | [], b, w => by simp [dot]
  | x :: a', b, [] => by simp [dot]
  | x :: a', b, yw :: w' => by
      show dot (x :: (a' ++ b)) (yw :: w') = _
      simp only [dot, List.zipWith_cons_cons, List.sum_cons, List.length_cons,
        List.take_succ_cons, List.drop_succ_cons]
      have ih := dot_append a' b w'
      simp only [dot] at ih
      rw [ih]
      ring

theorem matVec_hstack2 : ∀ (A B : List (List ℚ)) (w : List ℚ) (m : ℕ),
    (∀ r ∈ A, r.length = m) → A.length = B.length →
    matVec (hstack2 A B) w =
      List.zipWith (· + ·) (matVec A (w.take m)) (matVec B (w.drop m))
  | [], B, w, m, _, _ => by simp [hstack2, matVec]
  | a :: A', [], w, m, _, hAB => by simp at hAB
  | a :: A', b :: B', w, m, hA, hAB => by
      show (dot (a ++ b) w) :: matVec (hstack2 A' B') w = _
      rw [dot_append, hA a (by simp),
        matVec_hstack2 A' B' w m (fun r hr => hA r (by simp [hr]))
          (by simpa using hAB)]
      rfl

theorem hstack2_row_length : ∀ (A B : List (List ℚ)) (m k : ℕ),
    (∀ r ∈ A, r.length = m) → (∀ r ∈ B, r.length = k) →
    ∀ r ∈ hstack2 A B, r.length = m + k
  | [], B, m, k, _, _ => by simp [hstack2]
  | a :: A', [], m, k, _, _ => by simp [hstack2]
  | a :: A', b :: B', m, k, hA, hB => by
      intro r hr
      rcases List.mem_cons.mp hr with rfl | hr'
      · rw [List.length_append, hA a (by simp), hB b (by simp)]
      · exact hstack2_row_length A' B' m k (fun s hs => hA s (by simp [hs]))
          (fun s hs => hB s (by simp [hs])) r hr'

/-- Claim C2, counterexample: with `tf = [0,1,2]` (daily sampling,
`dt = 1`, `spd = 1`, `lag_h = 24`, so `nm = 2`), `BP = [0,1,2]` and one
tidal frequency `fqs = [1]`, the tidal basis values used are
`cos(2π·f·t)` and `sin(2π·f·t)` at `f·t ∈ {0, 1}`, where the real cosine
is `1` and the real sine is `0`; the oracle `(fun _ => 1, fun _ => 0)`
agrees with them at every evaluated point.  For the fitted coefficient
vector `c = [0,0,0,1,0]` (tidal cosine coefficient 1, everything else 0),
the quantity the code subtracts (`[0,1,2]`) differs from the
barometric-only quantity the claim describes (`[0,0,0]`): the tidal
harmonic contribution *is* part of the subtracted correction. -/
theorem hals_subtracted_includes_tides_cex :
    subtractedOf 1
        (halsX true (halsV (dSeries [0, 1, 2] 1) 2 2)
          (halsU1 (fun _ => 1) [0, 1, 2] [1] 2)
          (halsU2 (fun _ => 0) [0, 1, 2] [1] 2))
        [0, 0, 0, 1, 0] ≠
      specHalsSubtractedBaroOnly 1
        (halsV (dSeries [0, 1, 2] 1) 2 2) [0, 0, 0, 1, 0] 2 := by
  have hdBP : dSeries [0, 1, 2] 1 = [1, 1] := by
    norm_num [dSeries, diffQ]
  have hv : halsV [1, 1] 2 2 = [[-1, 0], [-1, -1]] := by
    norm_num [halsV, List.range_succ]
  have hu1 : halsU1 (fun _ => (1 : ℚ)) [0, 1, 2] [1] 2 = [[1], [1]] := by
    norm_num [halsU1, List.range_succ]
  have hu2 : halsU2 (fun _ => (0 : ℚ)) [0, 1, 2] [1] 2 = [[0], [0]] := by
    norm_num [halsU2, List.range_succ]
  have hlhs : subtractedOf 1
      (halsX true (halsV (dSeries [0, 1, 2] 1) 2 2)
        (halsU1 (fun _ => 1) [0, 1, 2] [1] 2)
        (halsU2 (fun _ => 0) [0, 1, 2] [1] 2)) [0, 0, 0, 1, 0] = [0, 1, 2] := by
    rw [hdBP, hv, hu1, hu2]
    norm_num [subtractedOf, dWLcOf, halsX, hstack2, matVec, dot, cumsum, cumsumAux]
  have hrhs : specHalsSubtractedBaroOnly 1
      (halsV (dSeries [0, 1, 2] 1) 2 2) [0, 0, 0, 1, 0] 2 = [0, 0, 0] := by
    rw [hdBP, hv]
    norm_num [specHalsSubtractedBaroOnly, matVec, dot, cumsum, cumsumAux]
  rw [hlhs, hrhs]
  norm_num

/-- Claim C2, amended: in `hals` mode with Earth tides included, the
quantity subtracted from the raw head series (before re-centering) is `dt`
times the cumulative sum of the *total* fitted contribution to the head
derivative — the barometric lagged part plus the tidal cosine and sine
harmonic parts — padded with a leading zero at the first sample. -/
theorem hals_subtracted_full_contribution
    (v u1 u2 : List (List ℚ)) (c : List ℚ) (dt : ℚ) (nm NP : ℕ)
    (hv : ∀ r ∈ v, r.length = nm) (hu1 : ∀ r ∈ u1, r.length = NP)
    (hvu1 : v.length = u1.length) (hvu2 : v.length = u2.length) :
    subtractedOf dt (hstack2 (hstack2 v u1) u2) c =
      0 :: (cumsum (List.zipWith (· + ·)
        (List.zipWith (· + ·) (matVec v ((c.drop 1).take nm))
          (matVec u1 (((c.drop 1).drop nm).take NP)))
        (matVec u2 ((c.drop 1).drop (nm + NP))))).map (fun z => dt * z) := by
  have hrows : ∀ r ∈ hstack2 v u1, r.length = nm + NP :=
    hstack2_row_length v u1 nm NP hv hu1
  have hlen : (hstack2 v u1).length = u2.length := by
    simp only [hstack2, List.length_zipWith]
    omega
  have key : matVec (hstack2 (hstack2 v u1) u2) (c.drop 1) =
      List.zipWith (· + ·)
        (List.zipWith (· + ·) (matVec v ((c.drop 1).take nm))
          (matVec u1 (((c.drop 1).drop nm).take NP)))
        (matVec u2 ((c.drop 1).drop (nm + NP))) := by
    rw [matVec_hstack2 (hstack2 v u1) u2 (c.drop 1) (nm + NP) hrows hlen,
      matVec_hstack2 v u1 ((c.drop 1).take (nm + NP)) nm hv hvu1,
      List.take_take, List.drop_take,
      show min nm (nm + NP) = nm from by omega,
      show nm + NP - nm = NP from by omega]
  rw [subtractedOf, dWLcOf, key]

/-- Witness for the amended C2 at the counterexample input. -/
theorem hals_subtracted_full_contribution_witness :
    subtractedOf 1 (hstack2 (hstack2 [[-1, 0], [-1, -1]] [[1], [1]]) [[0], [0]])
        [0, 0, 0, 1, 0] =
      0 :: (cumsum (List.zipWith (· + ·)
        (List.zipWith (· + ·)
          (matVec [[-1, 0], [-1, -1]] ((([0, 0, 0, 1, 0] : List ℚ).drop 1).take 2))
          (matVec [[1], [1]] (((([0, 0, 0, 1, 0] : List ℚ).drop 1).drop 2).take 1)))
        (matVec [[0], [0]] ((([0, 0, 0, 1, 0] : List ℚ).drop 1).drop (2 + 1))))).map
          (fun z => (1 : ℚ) * z) :=
  hals_subtracted_full_contribution [[-1, 0], [-1, -1]] [[1], [1]] [[0], [0]]
    [0, 0, 0, 1, 0] 1 2 1
    (by intro r hr; fin_cases hr <;> rfl)
    (by intro r hr; fin_cases hr <;> rfl)
    rfl rfl

/-! ### Claim C9: `hals`-mode tidal complex coefficients -/

theorem range_map_get? {β : Type} (f : ℕ → β) (n r : ℕ) (h : r < n) :
    ((List.range n).map f).get? r = some (f r) := by
  rw [List.get?_map, List.get?_range h]
  rfl

theorem map_getD (g : ℚ → ℚ) (l : List ℚ) (i : ℕ) (h : i < l.length) :
    (l.map g).getD i 0 = g (l.getD i 0) := by
  rw [List.getD_eq_getElem (l.map g) 0 (by simpa using h), List.getElem_map,
    List.getD_eq_getElem l 0 h]

/-- Claim C9: in `regress_deconv` `hals` mode, the `i`-th tidal complex
coefficient is `c[nm+1+i] + 1j*c[NP+nm+1+i]`: real part from the
coefficient of design-matrix column `nm+1+i` — shown below to be the
*cosine* column `u1[:,i]` — and imaginary part from the coefficient of
column `nm+1+NP+i` — the *sine* column `u2[:,i]`.  This is the opposite
real/imaginary assignment to `harmonic_lsqr`, whose complex coefficient
takes its real part from the sine-column coefficient `theta[2j+1]` (last
conjunct, with `Phi[:,2j]` the cosine column as shown for C7). -/
theorem hals_erf_opposite_assignment
    (cos2pi sin2pi : ℚ → ℚ) (t fqs dBP c theta : List ℚ) (n nm i j r : ℕ)
    (hi : i < fqs.length) (hr : r < n)
    (hθ : theta.length = 2 * fqs.length + 1) (hj : j < fqs.length) :
    (trfOf c nm fqs.length).get? i =
        some (c.getD (nm + 1 + i) 0, c.getD (fqs.length + (nm + 1 + i)) 0) ∧
      ((halsZ true (halsV dBP n nm) (halsU1 cos2pi t fqs n)
          (halsU2 sin2pi t fqs n) n).getD r []).getD (nm + 1 + i) 0 =
        cos2pi (fqs.getD i 0 * t.getD r 0) ∧
      ((halsZ true (halsV dBP n nm) (halsU1 cos2pi t fqs n)
          (halsU2 sin2pi t fqs n) n).getD r []).getD (nm + 1 + fqs.length + i) 0 =
        sin2pi (fqs.getD i 0 * t.getD r 0) ∧
      (halsComp theta).get? j =
        some (theta.getD (2 * j + 1) 0, theta.getD (2 * j) 0) := by
  have hvget : (halsV dBP n nm).get? r =
      some ((List.range nm).map (fun ii =>
        if ii ≤ r then -(dBP.getD (r - ii) 0) else 0)) :=
    range_map_get? _ n r hr
  have hu1get : (halsU1 cos2pi t fqs n).get? r =
      some (fqs.map (fun fj => cos2pi (fj * t.getD r 0))) :=
    range_map_get? _ n r hr
  have hu2get : (halsU2 sin2pi t fqs n).get? r =
      some (fqs.map (fun fj => sin2pi (fj * t.getD r 0))) :=
    range_map_get? _ n r hr
  have honesget : (onesCol n).get? r = some [1] := range_map_get? _ n r hr
  have hXget : (halsX true (halsV dBP n nm) (halsU1 cos2pi t fqs n)
      (halsU2 sin2pi t fqs n)).get? r =
      some ((((List.range nm).map (fun ii =>
          if ii ≤ r then -(dBP.getD (r - ii) 0) else 0)) ++
        (fqs.map (fun fj => cos2pi (fj * t.getD r 0)))) ++
        (fqs.map (fun fj => sin2pi (fj * t.getD r 0)))) := by
    show (hstack2 (hstack2 _ _) _).get? r = _
    rw [hstack2, List.get?_zipWith', hstack2, List.get?_zipWith',
      hvget, hu1get, hu2get]
    rfl
  have hZrow : (halsZ true (halsV dBP n nm) (halsU1 cos2pi t fqs n)
      (halsU2 sin2pi t fqs n) n).getD r [] =
      [1] ++ (((((List.range nm).map (fun ii =>
          if ii ≤ r then -(dBP.getD (r - ii) 0) else 0)) ++
        (fqs.map (fun fj => cos2pi (fj * t.getD r 0)))) ++
        (fqs.map (fun fj => sin2pi (fj * t.getD r 0))))) := by
    rw [List.getD_eq_getD_get?, halsZ, hstack2, List.get?_zipWith',
      honesget, hXget]
    rfl
  have hvlen : ((List.range nm).map (fun ii =>
      if ii ≤ r then -(dBP.getD (r - ii) 0) else 0)).length = nm := by simp
  have hu1len : (fqs.map (fun fj => cos2pi (fj * t.getD r 0))).length =
      fqs.length := by simp
  refine ⟨range_map_get? _ fqs.length i hi, ?_, ?_,
    halsComp_get? theta fqs.length j hθ hj⟩
  · rw [hZrow,
      List.getD_append_right _ _ _ _ (by simp only [List.length_singleton]; omega),
      show nm + 1 + i - ([(1 : ℚ)]).length = nm + i from
        (by simp only [List.length_singleton]; omega),
      List.getD_append _ _ _ _ (by rw [List.length_append, hvlen, hu1len]; omega),
      List.getD_append_right _ _ _ _ (by rw [hvlen]; omega),
      show nm + i - ((List.range nm).map (fun ii =>
        if ii ≤ r then -(dBP.getD (r - ii) 0) else 0)).length = i
        from (by rw [hvlen]; omega),
      map_getD _ fqs i hi]
  · rw [hZrow,
      List.getD_append_right _ _ _ _ (by simp only [List.length_singleton]; omega),
      show nm + 1 + fqs.length + i - ([(1 : ℚ)]).length = nm + fqs.length + i
        from (by simp only [List.length_singleton]; omega),
      List.getD_append_right _ _ _ _
        (by rw [List.length_append, hvlen, hu1len]; omega),
      show nm + fqs.length + i - ((((List.range nm).map (fun ii =>
          if ii ≤ r then -(dBP.getD (r - ii) 0) else 0)) ++
        (fqs.map (fun fj => cos2pi (fj * t.getD r 0)))).length) = i
        from by rw [List.length_append, hvlen, hu1len]; omega,
      map_getD _ fqs i hi]

/-- Witness for C9 at `fqs = [1]`, `nm = 1`, `n = 1`,
`c = [5, 6, 7, 8]`, `theta = [10, 20, 30]`: the tidal complex coefficient
is `(c[2], c[3]) = (7, 8)` while the `harmonic_lsqr` coefficient is
`(theta[1], theta[0]) = (20, 10)`. -/
theorem hals_erf_opposite_assignment_witness :
    (trfOf [5, 6, 7, 8] 1 ([1] : List ℚ).length).get? 0 =
        some (([5, 6, 7, 8] : List ℚ).getD 2 0, ([5, 6, 7, 8] : List ℚ).getD 3 0) ∧
      (halsComp [10, 20, 30]).get? 0 =
        some (([10, 20, 30] : List ℚ).getD 1 0, ([10, 20, 30] : List ℚ).getD 0 0) :=
  ⟨(hals_erf_opposite_assignment (fun _ => (0 : ℚ)) (fun _ => (0 : ℚ))
      [0] [1] [1] [5, 6, 7, 8] [10, 20, 30] 1 1 0 0 0
      (by decide) (by decide) (by decide) (by decide)).1,
    (hals_erf_opposite_assignment (fun _ => (0 : ℚ)) (fun _ => (0 : ℚ))
      [0] [1] [1] [5, 6, 7, 8] [10, 20, 30] 1 1 0 0 0
      (by decide) (by decide) (by decide) (by decide)).2.2.2⟩

/-! ### Claim C8: `lin_window_ovrlp` coverage policy -/

theorem accum_snd_foldl (x : List ℚ) (yv : ℕ → ℚ) (fit : List ℕ → ℚ × ℚ) :
    ∀ (ws : List (List ℕ)) (z : (ℕ → ℚ) × (ℕ → ℕ)) (i : ℕ),
      (ws.foldl (addWindow x yv fit) z).2 i =
        z.2 i + ws.countP (fun w => decide (i ∈ w))
  | [], z, i => by simp
  | w :: ws', z, i => by
      rw [List.foldl_cons, accum_snd_foldl x yv fit ws' _ i, List.countP_cons]
      simp only [addWindow]
      by_cases hw : i ∈ w <;> simp [hw] <;> omega

theorem accum_fst_foldl (x : List ℚ) (yv : ℕ → ℚ) (fit : List ℕ → ℚ × ℚ) :
    ∀ (ws : List (List ℕ)) (z : (ℕ → ℚ) × (ℕ → ℕ)) (i : ℕ),
      (ws.foldl (addWindow x yv fit) z).1 i =
        z.1 i + (ws.map (fun w =>
          if i ∈ w then detrendContrib x yv fit w i else 0)).sum
  | [], z, i => by simp
  | w :: ws', z, i => by
      rw [List.foldl_cons, accum_fst_foldl x yv fit ws' _ i, List.map_cons,
        List.sum_cons]
      simp only [addWindow]
      ring

/-- Claim C8: `lin_window_ovrlp` returns a vector of the same length as
the input; a sample covered by at least one surviving window gets the
accumulated per-window detrended sum divided by the number of windows that
contributed to it, and a sample covered by zero surviving windows gets
exactly `0` (the NaN produced by `counter[counter==0] = np.nan` followed
by division is replaced by `0.0`). -/
theorem lin_window_ovrlp_coverage_policy
    (x : List ℚ) (y : List (Option ℚ)) (wlen : ℚ) (stopper n_ovrlp : ℕ)
    (fit : List ℕ → ℚ × ℚ) (hx : 2 ≤ x.length) (hxy : x.length = y.length) :
    (lin_window_ovrlp x y wlen stopper n_ovrlp fit).length = y.length ∧
      ∀ i, i < y.length →
        ((survivingWindows x y wlen stopper n_ovrlp).countP
            (fun w => decide (i ∈ w)) = 0 →
          (lin_window_ovrlp x y wlen stopper n_ovrlp fit).getD i 0 = 0) ∧
        (0 < (survivingWindows x y wlen stopper n_ovrlp).countP
            (fun w => decide (i ∈ w)) →
          (lin_window_ovrlp x y wlen stopper n_ovrlp fit).getD i 0 =
            ((survivingWindows x y wlen stopper n_ovrlp).map
              (fun w => if i ∈ w then detrendContrib x (yValue y) fit w i else 0)).sum /
              ((survivingWindows x y wlen stopper n_ovrlp).countP
                (fun w => decide (i ∈ w)) : ℚ)) := by
  have hcnt : ∀ i, (accumDetrend x y wlen stopper n_ovrlp fit).2 i =
      (survivingWindows x y wlen stopper n_ovrlp).countP (fun w => decide (i ∈ w)) := by
    intro i
    rw [accumDetrend, accum_snd_foldl]
    simp
  have hacc : ∀ i, (accumDetrend x y wlen stopper n_ovrlp fit).1 i =
      ((survivingWindows x y wlen stopper n_ovrlp).map
        (fun w => if i ∈ w then detrendContrib x (yValue y) fit w i else 0)).sum := by
    intro i
    rw [accumDetrend, accum_fst_foldl]
    simp
  constructor
  · simp [lin_window_ovrlp]
  · intro i hi
    have hget : (lin_window_ovrlp x y wlen stopper n_ovrlp fit).getD i 0 =
        (if (accumDetrend x y wlen stopper n_ovrlp fit).2 i = 0 then 0
         else (accumDetrend x y wlen stopper n_ovrlp fit).1 i /
           ((accumDetrend x y wlen stopper n_ovrlp fit).2 i : ℚ)) := by
      rw [lin_window_ovrlp, List.getD_eq_getElem _ 0 (by simpa using hi)]
      simp only [List.getElem_map, List.getElem_range]
    refine ⟨fun h0 => ?_, fun hpos => ?_⟩
    · rw [hget, if_pos (by rw [hcnt]; exact h0)]
    · rw [hget, if_neg (by rw [hcnt]; omega), hacc, hcnt]

/-- Witness for C8 at `x = [0, 1]`, `y = [some 1, some 2]`,
window length 1, stopper 3, no overlap. -/
theorem lin_window_ovrlp_coverage_policy_witness :
    (lin_window_ovrlp [0, 1] [some 1, some 2] 1 3 0 (fun _ => (0, 0))).length =
      ([some 1, some 2] : List (Option ℚ)).length :=
  (lin_window_ovrlp_coverage_policy [0, 1] [some 1, some 2] 1 3 0 (fun _ => (0, 0))
    (by decide) (by decide)).1

end HgsAnalysis
